import Mathlib

/-!
# Verification of the dsz core (directory size + tree rendering)

Shallow embedding of the dsz sources:

* `src/main.rs` — `dir_size` (infallible variant), `size_in_bytes_pretty_string`;
* `src/tree.rs` — `SortType::sort_entries`, `file_is_hidden`, `dir_entry_size`,
  `TreeBranch`, `generate_tree_string`.

`tree.rs` imports a *fallible* `dir_size` (returning `anyhow::Result<(u64, u64)>`)
from its crate root; that crate root is not among the sources, so that function is
modelled from the specification (see `size_of` below) and results that depend on
it say so.

Modelling conventions:

* Machine integers are `Nat`; the only place a `u64` can overflow in the embedded
  code is the byte-total sum in `dir_size`, which is reduced `% 2 ^ 64`
  (release-profile wrapping semantics).
* OS strings are modelled by `OsStrM`: a display string plus a UTF-8 validity
  flag.  `OsStr` ordering in Rust is byte-wise, which on valid UTF-8 agrees with
  code-point (i.e. Lean `String`) ordering; only UTF-8 names are ever compared in
  the theorems below.
* Paths are component lists.  Rust's `Path::components()` on the canonical
  absolute paths used by dsz additionally counts the leading root component; the
  code only ever compares two component counts or subtracts them, so the constant
  shift cancels and is omitted.
* The filesystem is a tree (`FsNode`), with `Option` encoding each fallible
  observation: a file or symlink whose metadata cannot be read has `meta = none`,
  a directory whose listing fails has `children = none`.
-/

namespace Dsz

/-- Model of `std::ffi::OsStr`: the textual form plus whether the underlying
bytes are valid UTF-8 (`to_str` succeeds only in that case). -/
structure OsStrM where
  repr : String
  utf8 : Bool
deriving DecidableEq, Repr

/-- `OsStr::to_str`. -/
def OsStrM.to_str (s : OsStrM) : Option String :=
  if s.utf8 then some s.repr else none

/-- A path, as its list of components (root marker omitted, see the header). -/
abbrev PathM := List OsStrM

/-- `Path::display().to_string()` for the canonical absolute paths dsz uses. -/
def pathDisplay (p : PathM) : String :=
  "/" ++ String.intercalate "/" (p.map OsStrM.repr)

/-- The metadata observations the code reads from `std::fs::Metadata`:
`len()`, and the `modified()` / `created()` timestamps, each of which can be
unsupported (`none`). -/
structure FileMeta where
  len : Nat
  modified : Option Nat
  created : Option Nat
deriving DecidableEq, Repr

/-- A filesystem subtree as observed by a walk.

* `file name meta` — regular file; `meta = none` models `entry.metadata()`
  failing for it.
* `symlink name targetIsDir meta` — symbolic link (never followed by the walk);
  `targetIsDir` records what `Path::is_dir()` — which *does* follow links —
  reports for it, `meta` is its own (`symlink_metadata`) metadata.
* `dir name meta children` — directory; `children = none` models `read_dir`
  failing (the walker then yields an error entry), `meta = none` models `stat`
  failing for the directory itself. -/
inductive FsNode where
  | file (name : OsStrM) (meta : Option FileMeta)
  | symlink (name : OsStrM) (targetIsDir : Bool) (meta : Option FileMeta)
  | dir (name : OsStrM) (meta : Option FileMeta) (children : Option (List FsNode))

/-- The entry's final path component name. -/
def FsNode.name : FsNode → OsStrM
  | .file n _ => n
  | .symlink n _ _ => n
  | .dir n _ _ => n

/-- Result of `entry.metadata()` / `std::fs::symlink_metadata` for the entry. -/
def FsNode.metaOpt : FsNode → Option FileMeta
  | .file _ m => m
  | .symlink _ _ m => m
  | .dir _ m _ => m

/-- `entry.file_type().is_dir()` — the dirent file type, links not followed. -/
def FsNode.fileTypeIsDir : FsNode → Bool
  | .dir _ _ _ => true
  | _ => false

/-- `entry.file_type().is_file()` — the dirent file type, links not followed. -/
def FsNode.fileTypeIsFile : FsNode → Bool
  | .file _ _ => true
  | _ => false

/-- `Path::is_dir()`: queries `fs::metadata` (following symlinks) and returns
`false` when that query fails.  In particular a real directory whose metadata
cannot be read reports `false` here, while its dirent file type is still
`dir`. -/
def FsNode.pathIsDir : FsNode → Bool
  | .dir _ (some _) _ => true
  | .dir _ none _ => false
  | .symlink _ t _ => t
  | .file _ _ => false

/-- One item yielded by a `walkdir` iterator: an `Ok` directory entry (its full
path and the node observed there) or an `Err`. -/
inductive WalkItem where
  | ok (path : PathM) (node : FsNode)
  | err

/-- Extract the entry of an `Ok` walk item. -/
def WalkItem.okOf : WalkItem → Option (PathM × FsNode)
  | .ok p n => some (p, n)
  | .err => none

/-! ## `dir_size` (src/main.rs, lines 172–192)

The plain walk used there has no sorting, no depth bound and no filtering:
`WalkDir::new(dir)` yields the root entry first and then every descendant in
depth-first pre-order, with one `Err` item produced for each directory whose
listing fails (after the directory's own `Ok` entry). -/

mutual

/-- The unsorted, unbounded `walkdir` stream rooted at path `p` / node `n`. -/
def walkPlain (p : PathM) : FsNode → List WalkItem
  | .file nm m => [.ok p (.file nm m)]
  | .symlink nm t m => [.ok p (.symlink nm t m)]
  | .dir nm m none => [.ok p (.dir nm m none), .err]
  | .dir nm m (some cs) => .ok p (.dir nm m (some cs)) :: walkPlainL p cs

/-- Walk each child (its path extends the parent path by its name). -/
def walkPlainL (p : PathM) : List FsNode → List WalkItem
  | [] => []
  | c :: cs => walkPlain (p ++ [c.name]) c ++ walkPlainL p cs

end

/-- `entry.metadata().map_or_else(log-and-0, len)`: a file entry whose metadata
read fails contributes `0` bytes (the failure is only logged). -/
def entrySizeOr0 (n : FsNode) : Nat :=
  (n.metaOpt.map FileMeta.len).getD 0

/-- The per-file byte contributions of a walk stream:
`.filter_map(Result::ok).filter(is_file).map(len-or-0)`. -/
def contribs (l : List WalkItem) : List Nat :=
  ((l.filterMap WalkItem.okOf).filter fun e => e.2.fileTypeIsFile).map
    fun e => entrySizeOr0 e.2

/-- The `file_sizes` vector built by `dir_size`. -/
def fileSizesVec (t : FsNode) : List Nat :=
  contribs (walkPlain [] t)

/-- `dir_size` of src/main.rs: the summed byte total (a `u64`, hence reduced
`% 2 ^ 64`) and the number of entries of the `file_sizes` vector.  The root
path does not influence the sizes, so the walk is rooted at the empty path. -/
def dir_size (t : FsNode) : Nat × Nat :=
  ((fileSizesVec t).sum % 2 ^ 64, (fileSizesVec t).length)

/-! Specification-side aggregate: `fileLens t` is the in-order list of byte
lengths of the regular-file entries reachable through readable directories
(an entry whose metadata cannot be read appears as `0`); symlinks are ignored
and intermediate directories contribute nothing. -/

mutual

/-- In-order byte lengths of the reachable regular-file entries of a subtree. -/
def fileLens : FsNode → List Nat
  | .file _ m => [(m.map FileMeta.len).getD 0]
  | .symlink _ _ _ => []
  | .dir _ _ none => []
  | .dir _ _ (some cs) => fileLensL cs

/-- `fileLens` over a list of sibling subtrees. -/
def fileLensL : List FsNode → List Nat
  | [] => []
  | c :: cs => fileLens c ++ fileLensL cs

end

/-- Byte total of the regular files reachable through readable directories. -/
def sumFileLens (t : FsNode) : Nat :=
  (fileLens t).sum

/-- Number of reachable regular-file entries. -/
def countFiles (t : FsNode) : Nat :=
  (fileLens t).length

mutual

/-- Every reachable regular file has readable metadata and every reachable
directory has a readable listing (symlinks are not followed, so only their
entry is observed). -/
def clean : FsNode → Bool
  | .file _ m => m.isSome
  | .symlink _ _ _ => true
  | .dir _ _ none => false
  | .dir _ _ (some cs) => cleanL cs

/-- `clean` over a list of sibling subtrees. -/
def cleanL : List FsNode → Bool
  | [] => true
  | c :: cs => clean c && cleanL cs

end

/-- `contribs` distributes over stream concatenation. -/
theorem contribs_append (a b : List WalkItem) :
    contribs (a ++ b) = contribs a ++ contribs b := by
  simp [contribs]

mutual

/-- The walk-based contribution list of a subtree is its `fileLens`. -/
theorem contribs_walkPlain (t : FsNode) (p : PathM) :
    contribs (walkPlain p t) = fileLens t := by
  cases t with
  | file nm m =>
      simp [walkPlain, fileLens, contribs, WalkItem.okOf, FsNode.fileTypeIsFile,
        entrySizeOr0, FsNode.metaOpt]
  | symlink nm tg m =>
      simp [walkPlain, fileLens, contribs, WalkItem.okOf, FsNode.fileTypeIsFile]
  | dir nm m cs? =>
      cases cs? with
      | none =>
          simp [walkPlain, fileLens, contribs, WalkItem.okOf, FsNode.fileTypeIsFile]
      | some cs =>
          have h := contribs_walkPlainL cs p
          simp [walkPlain, fileLens, contribs, WalkItem.okOf,
            FsNode.fileTypeIsFile] at h ⊢
          exact h

/-- The walk-based contribution list of a sibling list is its `fileLensL`. -/
theorem contribs_walkPlainL (cs : List FsNode) (p : PathM) :
    contribs (walkPlainL p cs) = fileLensL cs := by
  cases cs with
  | nil => simp [walkPlainL, fileLensL, contribs]
  | cons c cs =>
      have h1 := contribs_walkPlain c (p ++ [c.name])
      have h2 := contribs_walkPlainL cs p
      simp [walkPlainL, fileLensL, contribs_append, h1, h2]

end

/-- Characterisation of `dir_size` on every input: byte total is the (wrapped)
sum of the reachable file lengths, count is the number of reachable file
entries. -/
theorem dir_size_eq (t : FsNode) :
    dir_size t = (sumFileLens t % 2 ^ 64, countFiles t) := by
  unfold dir_size fileSizesVec sumFileLens countFiles
  rw [contribs_walkPlain t []]

/-- C1: for every directory (or single file) whose reachable regular files all
have readable metadata and whose directories are all listable, `dir_size`
returns exactly (sum of the metadata lengths of the reachable regular files,
their number); symlinks are ignored and intermediate directories add nothing to
the count.  The byte-total bound expresses that the `u64` sum does not wrap.
For a single regular file `t = .file nm (some m)` this specialises to
`(m.len, 1)`. -/
theorem claim_C1_dir_size (t : FsNode) (_hclean : clean t = true)
    (hbound : sumFileLens t < 2 ^ 64) :
    dir_size t = (sumFileLens t, countFiles t) := by
  rw [dir_size_eq t, Nat.mod_eq_of_lt hbound]

/-- Witness for C1: a concrete clean tree (two files of 100 and 50 bytes, one
of them nested, plus an ignored symlink) and a concrete single file. -/
theorem claim_C1_dir_size_witness :
    (clean (FsNode.dir ⟨"r", true⟩ (some ⟨0, none, none⟩)
        (some [FsNode.file ⟨"a", true⟩ (some ⟨100, none, none⟩),
               FsNode.dir ⟨"s", true⟩ (some ⟨0, none, none⟩)
                 (some [FsNode.file ⟨"b", true⟩ (some ⟨50, none, none⟩)]),
               FsNode.symlink ⟨"l", true⟩ false (some ⟨7, none, none⟩)])) = true ∧
     dir_size (FsNode.dir ⟨"r", true⟩ (some ⟨0, none, none⟩)
        (some [FsNode.file ⟨"a", true⟩ (some ⟨100, none, none⟩),
               FsNode.dir ⟨"s", true⟩ (some ⟨0, none, none⟩)
                 (some [FsNode.file ⟨"b", true⟩ (some ⟨50, none, none⟩)]),
               FsNode.symlink ⟨"l", true⟩ false (some ⟨7, none, none⟩)])) = (150, 2)) ∧
    dir_size (FsNode.file ⟨"a", true⟩ (some ⟨100, none, none⟩)) = (100, 1) := by
  refine ⟨⟨rfl, ?_⟩, ?_⟩
  · rw [claim_C1_dir_size _ (by decide) (by decide)]
    decide
  · rw [claim_C1_dir_size _ (by decide) (by decide)]
    decide

/-- C6 counterexample: a directory containing a single regular file whose
metadata read fails.  `dir_size` yields byte total 0 but file count 1 — the
unreadable file does *not* contribute zero to the count, contradicting the
claim, under which the result would be `(0, 0)`. -/
theorem claim_C6_counterexample :
    dir_size (FsNode.dir ⟨"d", true⟩ (some ⟨0, none, none⟩)
        (some [FsNode.file ⟨"f", true⟩ none])) = (0, 1) ∧
    ((0 : Nat), (1 : Nat)) ≠ ((0 : Nat), (0 : Nat)) := by
  exact ⟨rfl, by decide⟩

/-- C6 as amended: an unreadable descendant *directory* contributes zero bytes
and zero count (its subtree is dropped by the walker), while a descendant
*file* whose metadata read fails contributes zero bytes but still one to the
file count; in general `dir_size` returns the wrapped sum and the length of
the reachable-file contribution list. -/
theorem claim_C6_amended :
    (∀ t : FsNode, dir_size t = (sumFileLens t % 2 ^ 64, countFiles t)) ∧
    (∀ nm : OsStrM, fileLens (.file nm none) = [0]) ∧
    (∀ (nm : OsStrM) (m : Option FileMeta), fileLens (.dir nm m none) = []) :=
  ⟨dir_size_eq, fun _ => rfl, fun _ _ => rfl⟩

/-! ## `size_in_bytes_pretty_string` (src/main.rs, lines 204–223)

The source converts the `u64` to an `f64` and repeatedly divides by `1024.0`
while `i < SIZES_SIZE && size >= 1024.0`.  After `k` iterations the running
value is exactly `n / 1024 ^ k`:

* the initial `u64 → f64` conversion is exact for `n < 2 ^ 53`, and for larger
  `n` its rounding (relative error `< 2 ^ -52`) cannot change any of the
  comparisons `n / 1024 ^ k ≥ 1024` whose thresholds are at most `2 ^ 50`;
* each division by `1024` only decrements the exponent and is exact.

The model therefore tracks the exact rational `n / 1024 ^ i` as the pair
`(n, i)` and phrases the loop guard as `1024 ^ (i + 1) ≤ n`.  When the loop
leaves `i = SIZES_SIZE = 5` (which happens exactly for `n ≥ 1024 ^ 5 = 2 ^ 50`),
the source evaluates `SIZES[5]`, an out-of-bounds index that aborts the
process; the model returns `none` for that case.  For every input that does
not abort (`n < 2 ^ 50 < 2 ^ 53`) the f64 value is exact, so the `Nat`-scaled
arithmetic below is a faithful model of the remaining formatting. -/

/-- The unit table `SIZES`. -/
def SIZES : List String := ["B", "KB", "MB", "GB", "TB"]

/-- The division loop, tracking only the iteration count `i`; the running value
is `n / 1024 ^ i` and the guard `size >= 1024.0` is `2 ^ (10 * (i + 1)) ≤ n`.
The fuel argument only bounds recursion depth: the guard `i < SIZES.length`
stops the loop after at most five iterations, so fuel 5 never cuts it short. -/
def fmtLoopAux : Nat → Nat → Nat → Nat
  | 0, i, _ => i
  | fuel + 1, i, n =>
      if i < SIZES.length ∧ 2 ^ (10 * (i + 1)) ≤ n then fmtLoopAux fuel (i + 1) n
      else i

/-- Final value of `i` after the division loop of the formatter. -/
def fmtUnitIndex (n : Nat) : Nat :=
  fmtLoopAux SIZES.length 0 n

/-- Decimal expansion digits of the fraction `num / d` (`num < d`), stopping
when the remainder is zero.  All fractions reaching this function have
`d = 1024 ^ i` with `i ≤ 4`, whose expansions terminate within `10 * i ≤ 40`
digits, so fuel 64 never truncates. -/
def decimalFracDigits : Nat → Nat → Nat → List Nat
  | 0, _, _ => []
  | fuel + 1, num, d =>
      if num = 0 then []
      else 10 * num / d :: decimalFracDigits fuel (10 * num % d) d

/-- Rust `Display` for the (exactly representable) f64 value `ip + num / d`:
the shortest decimal that parses back to the same value.  For an integral
value this is the integer part alone; otherwise the value's exact finite
decimal expansion is printed.  (For dyadic fractions deeper than about 14
digits the shortest round-tripping form can be shorter than the exact
expansion; no theorem below evaluates this branch on such a value.) -/
def natDisplay (ip num d : Nat) : String :=
  if num = 0 then toString ip
  else toString ip ++ "." ++ String.mk ((decimalFracDigits 64 num d).map Nat.digitChar)

/-- Rounding of `num / d` to the nearest integer, ties to even — the rounding
Rust's `{:.2}` float formatting applies to the exact binary value. -/
def roundHalfEven (num d : Nat) : Nat :=
  let q := num / d
  let r := num % d
  if 2 * r < d then q
  else if d < 2 * r then q + 1
  else if q % 2 = 0 then q else q + 1

/-- Exactly-two-decimals digit pair for `{:.2}`. -/
def pad2 (k : Nat) : String :=
  String.mk [Nat.digitChar (k / 10 % 10), Nat.digitChar (k % 10)]

/-- `format!("{size:.2}")` of the value `m / 100`. -/
def dispFixed2 (m : Nat) : String :=
  toString (m / 100) ++ "." ++ pad2 (m % 100)

/-- `size_in_bytes_pretty_string` of src/main.rs.  `none` models the
out-of-bounds `SIZES[i]` abort.  `first_two_fract = (size.fract() * 100.0)
.round()` is `⌊(100 * (n % d) / d) + 1/2⌋` (`f64::round` is half away from
zero and the value is nonnegative), i.e. `(200 * (n % d) + d) / (2 * d)` in
integer arithmetic; if it is zero the value is shown with plain `Display`,
otherwise with `{:.2}`. -/
def size_in_bytes_pretty_string (n : Nat) : Option String :=
  let i := fmtUnitIndex n
  match SIZES.get? i with
  | none => none
  | some abbrv =>
      let d := 2 ^ (10 * i)
      let firstTwoFract := (200 * (n % d) + d) / (2 * d)
      if firstTwoFract = 0 then some (natDisplay (n / d) (n % d) d ++ " " ++ abbrv)
      else some (dispFixed2 (roundHalfEven (100 * n) d) ++ " " ++ abbrv)

/-- The loop either never ran or its final index `j` satisfies
`2 ^ (10 * j) ≤ n` (the guard of the last executed iteration). -/
theorem fmtLoopAux_spec (fuel i n : Nat) :
    fmtLoopAux fuel i n = i ∨ 2 ^ (10 * fmtLoopAux fuel i n) ≤ n := by
  induction fuel generalizing i with
  | zero => exact Or.inl rfl
  | succ fuel ih =>
      unfold fmtLoopAux
      split
      · next h =>
          rcases ih (i + 1) with h1 | h1

          · right
            rw [h1]
            exact h.2
          · exact Or.inr h1
      · exact Or.inl rfl

/-- Below the abort threshold the loop stops at a valid index. -/
theorem fmtUnitIndex_le_four {n : Nat} (hn : n < 2 ^ 50) : fmtUnitIndex n ≤ 4 := by
  unfold fmtUnitIndex
  rcases fmtLoopAux_spec SIZES.length 0 n with h | h
  · omega
  · by_contra hgt
    push_neg at hgt
    have h2 : 2 ^ 50 ≤ 2 ^ (10 * fmtLoopAux SIZES.length 0 n) :=
      Nat.pow_le_pow_right (by omega) (by omega)
    omega

/-- C2: the formatter is *not* total — at exactly 1024 TB (`2 ^ 50` bytes) and
above, the division loop leaves `i = 5` and the source indexes `SIZES[5]` out
of bounds, aborting instead of printing in TB (modelled by `none`); for every
input below `2 ^ 50` it succeeds. -/
theorem claim_C2_formatter_abort :
    size_in_bytes_pretty_string (2 ^ 50) = none ∧
    ∀ n : Nat, n < 2 ^ 50 → (size_in_bytes_pretty_string n).isSome = true := by
  constructor
  · decide
  · intro n hn
    have hle : fmtUnitIndex n ≤ 4 := fmtUnitIndex_le_four hn
    have hlt : fmtUnitIndex n < SIZES.length := by
      show fmtUnitIndex n < 5
      omega
    obtain ⟨a, ha⟩ : ∃ a, SIZES.get? (fmtUnitIndex n) = some a := by
      cases hg : SIZES.get? (fmtUnitIndex n) with
      | none =>
          rw [List.get?_eq_none] at hg
          omega
      | some a => exact ⟨a, rfl⟩
    rw [size_in_bytes_pretty_string]
    simp only [ha]
    split <;> simp

/-- Witness for C2's universally quantified part at a concrete input. -/
theorem claim_C2_formatter_abort_witness :
    (1536 : Nat) < 2 ^ 50 ∧ (size_in_bytes_pretty_string 1536).isSome = true :=
  ⟨by decide, claim_C2_formatter_abort.2 1536 (by decide)⟩

/-- C3 counterexample: `1536` bytes scale to exactly `1.5` KB, whose two
fractional digits round to `50 ≠ 0`, so the code prints with `{:.2}` —
`"1.50 KB"`, not the claimed `"1.5 KB"`.  Additionally, at `1029` bytes both
fractional digits round to zero but the scaled value `1.0048828125` is not an
integer, so plain `Display` prints the full fraction rather than omitting the
decimal portion. -/
theorem claim_C3_counterexample :
    size_in_bytes_pretty_string 1536 = some "1.50 KB" ∧
    some "1.50 KB" ≠ some "1.5 KB" ∧
    size_in_bytes_pretty_string 1029 = some "1.0048828125 KB" := by
  refine ⟨by decide, by decide, by decide⟩

/-- C3 as amended: the three mandated renderings are `"0 B"`, `"1 MB"` and
`"1.50 KB"` (two decimal places are kept even when the second digit is zero);
whenever the two fractional digits of the scaled value do not both round to
zero, the output has exactly two decimal places; when they do round to zero
the value is printed with plain `Display`, which omits the decimal portion
only for whole numbers (e.g. `1029 ↦ "1.0048828125 KB"`). -/
theorem claim_C3_amended :
    size_in_bytes_pretty_string 0 = some "0 B" ∧
    size_in_bytes_pretty_string 1048576 = some "1 MB" ∧
    size_in_bytes_pretty_string 1536 = some "1.50 KB" ∧
    size_in_bytes_pretty_string 1029 = some "1.0048828125 KB" ∧
    ∀ n : Nat, ∀ u : String,
      SIZES.get? (fmtUnitIndex n) = some u →
      (200 * (n % 2 ^ (10 * fmtUnitIndex n)) + 2 ^ (10 * fmtUnitIndex n)) /
          (2 * 2 ^ (10 * fmtUnitIndex n)) ≠ 0 →
      size_in_bytes_pretty_string n =
          some (toString (roundHalfEven (100 * n) (2 ^ (10 * fmtUnitIndex n)) / 100) ++
            "." ++ pad2 (roundHalfEven (100 * n) (2 ^ (10 * fmtUnitIndex n)) % 100) ++
            " " ++ u) ∧
        (pad2 (roundHalfEven (100 * n) (2 ^ (10 * fmtUnitIndex n)) % 100)).length = 2 := by
  refine ⟨by decide, by decide, by decide, by decide, ?_⟩
  intro n u hu hf
  constructor
  · rw [size_in_bytes_pretty_string]
    simp only [hu]
    rw [if_neg hf]
    rfl
  · rfl

/-- Witness for the universally quantified part of the amended C3, at 1536. -/
theorem claim_C3_amended_witness :
    SIZES.get? (fmtUnitIndex 1536) = some "KB" ∧
    size_in_bytes_pretty_string 1536 =
        some (toString (roundHalfEven (100 * 1536) (2 ^ (10 * fmtUnitIndex 1536)) / 100) ++
          "." ++ pad2 (roundHalfEven (100 * 1536) (2 ^ (10 * fmtUnitIndex 1536)) % 100) ++
          " " ++ "KB") :=
  ⟨by decide, (claim_C3_amended.2.2.2.2 1536 "KB" (by decide) (by decide)).1⟩

/-! ## The fallible `size_of` used by src/tree.rs

`tree.rs` calls a `dir_size` returning `anyhow::Result<(u64, u64)>` imported
from its crate root; that crate root is not among the sources (the `main.rs`
here belongs to an earlier iteration whose `dir_size` is infallible).  The
function is therefore modelled from the specification. -/

/-- Failure of a root-level size query. -/
inductive SizeError where
  | MetadataUnreadable
deriving DecidableEq, Repr

/-- The root of a query "cannot be read at all": its metadata is unreadable,
or it is a directory whose listing fails. -/
def rootUnreadable (t : FsNode) : Bool :=
  t.metaOpt.isNone ||
    (match t with
     | .dir _ _ none => true
     | _ => false)

mutual

/-- Modelled from the spec: recursive byte total of `size_of` — a readable
regular file contributes its metadata length, unreadable files and
subdirectories contribute zero, intermediate directories contribute nothing
themselves. -/
def specBytes : FsNode → Nat
  | .file _ (some m) => m.len
  | .file _ none => 0
  | .symlink _ _ _ => 0
  | .dir _ _ none => 0
  | .dir _ _ (some cs) => specBytesL cs

/-- `specBytes` over a list of sibling subtrees. -/
def specBytesL : List FsNode → Nat
  | [] => 0
  | c :: cs => specBytes c + specBytesL cs

end

mutual

/-- Modelled from the spec: recursive file count of `size_of` — a readable
regular file counts 1, unreadable files and subdirectories count zero, and
intermediate directory nodes do not add to the count. -/
def specFiles : FsNode → Nat
  | .file _ (some _) => 1
  | .file _ none => 0
  | .symlink _ _ _ => 0
  | .dir _ _ none => 0
  | .dir _ _ (some cs) => specFilesL cs

/-- `specFiles` over a list of sibling subtrees. -/
def specFilesL : List FsNode → Nat
  | [] => 0
  | c :: cs => specFiles c + specFilesL cs

end

/-- Modelled from the spec: the fallible size query `size_of(path) ->
(bytes, files)` that `tree.rs` imports as `dir_size` (its defining module is
missing from the sources).  A root that cannot be read at all fails with
`MetadataUnreadable`; failures of individual descendants are absorbed into the
aggregates and never surface. -/
def size_of (t : FsNode) : Except SizeError (Nat × Nat) :=
  if rootUnreadable t then .error .MetadataUnreadable
  else .ok (specBytes t, specFiles t)

/-- C5: a size query whose root cannot be read fails with the distinguishable
`MetadataUnreadable` error, while a query with a readable root always returns
an `Ok` aggregate — descendant read failures never surface as an error
(spec-modelled, see `size_of`). -/
theorem claim_C5_root_error :
    (∀ t : FsNode, rootUnreadable t = true →
       size_of t = .error .MetadataUnreadable) ∧
    (∀ t : FsNode, rootUnreadable t = false →
       size_of t = .ok (specBytes t, specFiles t)) := by
  constructor
  · intro t ht
    rw [size_of, if_pos ht]
  · intro t ht
    rw [size_of, if_neg (by rw [ht]; exact Bool.false_ne_true)]

/-- Witness for C5: an unreadable root directory fails; a readable root whose
descendants include an unreadable file and an unlistable subdirectory still
succeeds. -/
theorem claim_C5_root_error_witness :
    rootUnreadable (FsNode.dir ⟨"bad", true⟩ none none) = true ∧
    size_of (FsNode.dir ⟨"bad", true⟩ none none) = .error .MetadataUnreadable ∧
    rootUnreadable (FsNode.dir ⟨"g", true⟩ (some ⟨0, none, none⟩)
        (some [FsNode.file ⟨"f", true⟩ none,
               FsNode.dir ⟨"u", true⟩ (some ⟨0, none, none⟩) none])) = false ∧
    size_of (FsNode.dir ⟨"g", true⟩ (some ⟨0, none, none⟩)
        (some [FsNode.file ⟨"f", true⟩ none,
               FsNode.dir ⟨"u", true⟩ (some ⟨0, none, none⟩) none])) = .ok (0, 0) := by
  refine ⟨by decide, claim_C5_root_error.1 _ (by decide), by decide, ?_⟩
  have h := claim_C5_root_error.2
    (FsNode.dir ⟨"g", true⟩ (some ⟨0, none, none⟩)
      (some [FsNode.file ⟨"f", true⟩ none,
             FsNode.dir ⟨"u", true⟩ (some ⟨0, none, none⟩) none])) (by decide)
  rw [h]
  rfl

/-! ## `SortType::sort_entries` and the walk comparator (src/tree.rs)

The comparator closure passed to `WalkDir::sort_by` (tree.rs lines 245–258)
computes `sort_entries(a, b).unwrap_or(Ordering::Less)`, reverses that result
when `reverse_sort` is set, and prepends the primary key
`b.path().is_dir().cmp(&a.path().is_dir())`.  `Path::is_dir` is the
metadata-following query (`FsNode.pathIsDir`), not the dirent file type.
Only data of the compared entry (name, file type, metadata, subtree sizes)
enters the comparison, so the model compares `FsNode`s. -/

/-- The four sort modes of tree.rs. -/
inductive SortType where
  | Name
  | Size
  | ModifiedDate
  | CreatedDate
deriving DecidableEq, Repr

/-- An `io::Result`-style view of an optional observation (the error value is
irrelevant to the embedded code, which only ever discards it). -/
def exceptOf : Option α → Except Unit α
  | some a => .ok a
  | none => .error ()

/-- `dir_entry_size` of tree.rs (lines 170–176): recursive `size_of` for
directories (by dirent file type), the metadata length otherwise. -/
def dir_entry_size (n : FsNode) : Except Unit Nat :=
  if n.fileTypeIsDir then
    match size_of n with
    | .ok r => .ok r.1
    | .error _ => .error ()
  else
    match n.metaOpt with
    | some m => .ok m.len
    | none => .error ()

/-- `SortType::sort_entries` (tree.rs lines 70–78): name ascending by the raw
file name bytes, size and timestamps descending (second argument first), with
any metadata failure propagated as an error. -/
def SortType.sort_entries (st : SortType) (a b : FsNode) : Except Unit Ordering :=
  match st with
  | .Name => .ok (compare a.name.repr b.name.repr)
  | .Size => do
      let sb ← dir_entry_size b
      let sa ← dir_entry_size a
      return compare sb sa
  | .ModifiedDate => do
      let mb ← exceptOf b.metaOpt
      let tb ← exceptOf mb.modified
      let ma ← exceptOf a.metaOpt
      let ta ← exceptOf ma.modified
      return compare tb ta
  | .CreatedDate => do
      let mb ← exceptOf b.metaOpt
      let tb ← exceptOf mb.created
      let ma ← exceptOf a.metaOpt
      let ta ← exceptOf ma.created
      return compare tb ta

/-- The comparator closure passed to `WalkDir::sort_by` in
`generate_tree_string`: `sort_entries(a, b).unwrap_or(Less)`, reversed when
requested, behind the never-reversed directories-first primary key. -/
def cmpNodes (st : SortType) (rev : Bool) (a b : FsNode) : Ordering :=
  let secondary :=
    match st.sort_entries a b with
    | .ok o => o
    | .error _ => .lt
  (compare b.pathIsDir a.pathIsDir).then (if rev then secondary.swap else secondary)

/-- C4: when reading the metadata needed by the sort mode fails, the
comparison never fails the sort, but `unwrap_or(Ordering::Less)` orders the
*first argument* first regardless of which entry failed: with `a`'s modified
time unreadable and `b` readable, both `cmp(a, b)` and `cmp(b, a)` return
`Less`, so the failed entry is placed toward the *front* when it is the first
argument — and with `reverse_sort` the fallback itself is reversed to
`Greater`.  This contradicts the tree.rs comment that an erroring entry "gets
sent to the bottom". -/
theorem claim_C4_error_ordering :
    cmpNodes .ModifiedDate false (.file ⟨"a", true⟩ none)
        (.file ⟨"b", true⟩ (some ⟨10, some 5, some 5⟩)) = .lt ∧
    cmpNodes .ModifiedDate false (.file ⟨"b", true⟩ (some ⟨10, some 5, some 5⟩))
        (.file ⟨"a", true⟩ none) = .lt ∧
    cmpNodes .ModifiedDate true (.file ⟨"a", true⟩ none)
        (.file ⟨"b", true⟩ (some ⟨10, some 5, some 5⟩)) = .gt := by
  refine ⟨rfl, rfl, rfl⟩

/-! ## `generate_tree_string` (src/tree.rs, lines 230–322)

The walk is `WalkDir::new(root).sort_by(cmp).max_depth(depth)` followed by
`.filter_entry(pred).filter_map(|e| e.ok().map(TreeBranch::from)).skip(1)`.

* `sort_by` sorts every directory listing with the comparator (`Vec::sort_by`,
  a stable sort; the model uses a stable insertion sort, which produces the
  same output for every consistent comparator).  The comparator reads only
  order-insensitive data of the compared subtrees (names, types, metadata,
  aggregate sizes), so sorting all listings bottom-up first (`sortTree`) and
  then walking without sorting is equivalent; `cmpNodes_sortTree` below proves
  the comparator cannot distinguish sorted from unsorted subtrees.
* `max_depth depth`: an entry at depth `k ≤ depth` is yielded; its children
  are read only when `k < depth` (so no read error can be reported for an
  unreadable directory sitting exactly at the boundary).
* `filter_entry` applies the predicate to every `Ok` entry *including the
  root*; a rejected directory is skipped and never descended into.  `Err`
  items pass through and are then dropped by the `filter_map`.
* `skip(1)` drops the root entry (when the root was rejected the stream is
  already empty and nothing is dropped). -/

/-- Stable insertion step: `a` is placed before the first element it does not
compare `Greater` to. -/
def insertCmp (c : α → α → Ordering) (a : α) : List α → List α
  | [] => [a]
  | b :: l => if c a b = .gt then b :: insertCmp c a l else a :: b :: l

/-- Stable insertion sort (the model of `Vec::sort_by`). -/
def sortCmp (c : α → α → Ordering) : List α → List α
  | [] => []
  | b :: l => insertCmp c b (sortCmp c l)

mutual

/-- Sort every directory listing of the tree, bottom-up. -/
def sortTree (c : FsNode → FsNode → Ordering) : FsNode → FsNode
  | .file nm m => .file nm m
  | .symlink nm tg m => .symlink nm tg m
  | .dir nm m none => .dir nm m none
  | .dir nm m (some cs) => .dir nm m (some (sortCmp c (sortTreeL c cs)))

/-- `sortTree` over a list of sibling subtrees. -/
def sortTreeL (c : FsNode → FsNode → Ordering) : List FsNode → List FsNode
  | [] => []
  | x :: xs => sortTree c x :: sortTreeL c xs

end

/-- Rust's `str::starts_with('.')`: the first character is `'.'`. -/
def startsWithDot (s : String) : Bool :=
  s.data.head? = some '.'

/-- `file_is_hidden` of tree.rs (non-Windows variant, lines 153–158): error
when the path has no final component, otherwise whether the name converts to
UTF-8 *and* starts with `'.'`. -/
def file_is_hidden (p : PathM) : Except Unit Bool :=
  match p.getLast? with
  | none => .error ()
  | some s =>
      .ok (match s.to_str with
           | some str => startsWithDot str
           | none => false)

/-- `file_is_hidden(path).unwrap_or(false)`. -/
def hiddenUnwrapOr (p : PathM) : Bool :=
  match file_is_hidden p with
  | .ok b => b
  | .error _ => false

/-- The `filter_entry` predicate of `generate_tree_string`:
`!no_hidden || !file_is_hidden(e.path()).unwrap_or(false)`. -/
def filterPred (no_hidden : Bool) (p : PathM) : Bool :=
  !no_hidden || !hiddenUnwrapOr p

/-- The `TreeArgs` record of tree.rs (the clap attributes are CLI surface). -/
structure TreeArgs where
  depth : Nat
  no_hidden : Bool
  show_size : Bool
  sort_type : SortType
  reverse_sort : Bool

mutual

/-- The filtered, depth-bounded, pre-sorted `walkdir` stream: the node at path
`p` sits at depth `k` (the root has `k = 0`; the caller maintains
`k ≤ maxd`). -/
def walkNodeF (nh : Bool) (maxd k : Nat) (p : PathM) : FsNode → List WalkItem
  | .file nm m =>
      if filterPred nh p then [.ok p (.file nm m)] else []
  | .symlink nm tg m =>
      if filterPred nh p then [.ok p (.symlink nm tg m)] else []
  | .dir nm m none =>
      if filterPred nh p then
        .ok p (.dir nm m none) :: (if k < maxd then [.err] else [])
      else []
  | .dir nm m (some cs) =>
      if filterPred nh p then
        .ok p (.dir nm m (some cs)) ::
          (if k < maxd then walkChildrenF nh maxd (k + 1) p cs else [])
      else []

/-- Walk the (already sorted) children in order. -/
def walkChildrenF (nh : Bool) (maxd k : Nat) (p : PathM) : List FsNode → List WalkItem
  | [] => []
  | c :: cs => walkNodeF nh maxd k (p ++ [c.name]) c ++ walkChildrenF nh maxd k p cs

end

/-- The full walk stream of `generate_tree_string`. -/
def treeItems (args : TreeArgs) (root : PathM) (t : FsNode) : List WalkItem :=
  walkNodeF args.no_hidden args.depth 0 root
    (sortTree (cmpNodes args.sort_type args.reverse_sort) t)

/-- The `TreeBranch` stream after `.filter_map(|e| e.ok()).skip(1)`. -/
def treeEntries (args : TreeArgs) (root : PathM) (t : FsNode) :
    List (PathM × FsNode) :=
  ((treeItems args root t).filterMap WalkItem.okOf).drop 1

/-- Indentation token. -/
def INDENT : String := "│   "

/-- Continuation branch glyph. -/
def BRANCH : String := "├───"

/-- Terminal ("last sibling") branch glyph. -/
def BRANCH_LAST : String := "└───"

/-- `str::repeat`. -/
def repeatStr (s : String) : Nat → String
  | 0 => ""
  | n + 1 => s ++ repeatStr s n

/-- The `Display` implementation of `TreeBranch` (tree.rs lines 200–211): a
space (or `'!'` when `symlink_metadata` fails), a `'/'` for directories (by
dirent file type), then the file name (`"???"` when absent or not UTF-8). -/
def branchDisplay (e : PathM × FsNode) : String :=
  let file_name := (e.1.getLast?.bind OsStrM.to_str).getD "???"
  let spacer := if e.2.metaOpt.isSome then " " else "!"
  spacer ++ (if e.2.fileTypeIsDir then "/" else "") ++ file_name

/-- Stand-in for chrono's `"%Y-%m-%d %H:%M:%S"` rendering of a timestamp —
calendar formatting is an external collaborator (spec §1) and no theorem below
depends on this string's content. -/
def fmtDate (ts : Nat) : String :=
  toString ts

/-- The optional timestamp suffix (tree.rs lines 306–317): only for the date
sort modes; `" (???)"` when the timestamp is unsupported, nothing when the
metadata itself was unreadable. -/
def dateAnnot (st : SortType) (meta? : Option FileMeta) : String :=
  let ft? : Option (Option Nat) :=
    match st with
    | .ModifiedDate => meta?.map FileMeta.modified
    | .CreatedDate => meta?.map FileMeta.created
    | _ => none
  match ft? with
  | none => ""
  | some none => " (???)"
  | some (some ts) => " (" ++ fmtDate ts ++ ")"

/-- The size annotation (tree.rs lines 298–303): recursive `size_of` for
directories, the metadata length otherwise; `"???"` when unavailable.  `none`
only models the abort inside `size_in_bytes_pretty_string`. -/
def sizeAnnot (e : PathM × FsNode) : Option String :=
  let sz? : Option Nat :=
    if e.2.fileTypeIsDir then
      match size_of e.2 with
      | .ok r => some r.1
      | .error _ => none
    else e.2.metaOpt.map FileMeta.len
  match sz? with
  | none => some "???"
  | some n => size_in_bytes_pretty_string n

/-- One rendered line of the `while let` loop (tree.rs lines 267–320): indent
and branch glyph from the one-entry lookahead, the `TreeBranch` display, and —
only for files or directories at the depth boundary — the optional size and
timestamp annotations. -/
def renderLine (args : TreeArgs) (rootLen : Nat) (e : PathM × FsNode)
    (next? : Option (PathM × FsNode)) : Option String :=
  let pcc := e.1.length
  let dd := pcc - rootLen
  let ib :=
    match next? with
    | some ne =>
        (repeatStr INDENT (dd - 1), if ne.1.length < pcc then BRANCH_LAST else BRANCH)
    | none => (repeatStr BRANCH_LAST (dd - 1), BRANCH_LAST)
  let base := ib.1 ++ ib.2 ++ branchDisplay e
  if dd = args.depth ∨ e.2.fileTypeIsDir = false then
    (if args.show_size then (sizeAnnot e).map (fun s => " - " ++ s) else some "").map
      fun sz => base ++ sz ++ dateAnnot args.sort_type e.2.metaOpt
  else some base

/-- Render every entry with its one-entry lookahead (`peekable` + `peek`). -/
def renderAll (args : TreeArgs) (rootLen : Nat) :
    List (PathM × FsNode) → Option (List String)
  | [] => some []
  | [e] => (renderLine args rootLen e none).map fun l => [l]
  | e :: f :: es => do
      let l ← renderLine args rootLen e (some f)
      let ls ← renderAll args rootLen (f :: es)
      pure (l :: ls)

/-- The `branches` vector: the root display line first, then one line per
walked entry. -/
def treeLines (args : TreeArgs) (root : PathM) (t : FsNode) : Option (List String) :=
  (renderAll args root.length (treeEntries args root t)).map
    fun ls => pathDisplay root :: ls

/-- `generate_tree_string` of tree.rs: the lines joined with `"\n"`.  `none`
models the process aborting inside the size formatter (src/main.rs
`SIZES[5]`); every render without such an abort is `some`. -/
def generate_tree_string (args : TreeArgs) (root : PathM) (t : FsNode) : Option String :=
  (treeLines args root t).map (String.intercalate "\n")

/-- A node rejected by the filter predicate produces nothing (and is not
descended into). -/
theorem walkNodeF_rejected (nh : Bool) (maxd k : Nat) (p : PathM) (n : FsNode)
    (h : filterPred nh p = false) : walkNodeF nh maxd k p n = [] := by
  cases n with
  | file nm m => simp [walkNodeF, h]
  | symlink nm tg m => simp [walkNodeF, h]
  | dir nm m cs? => cases cs? <;> simp [walkNodeF, h]

/-- A node accepted by the filter predicate is yielded first, before anything
produced for its subtree. -/
theorem walkNodeF_accepted (nh : Bool) (maxd k : Nat) (p : PathM) (n : FsNode)
    (h : filterPred nh p = true) :
    ∃ rest, walkNodeF nh maxd k p n = .ok p n :: rest := by
  cases n with
  | file nm m => exact ⟨[], by simp [walkNodeF, h]⟩
  | symlink nm tg m => exact ⟨[], by simp [walkNodeF, h]⟩
  | dir nm m cs? =>
      cases cs? with
      | none =>
          exact ⟨if k < maxd then [.err] else [], by simp [walkNodeF, h]⟩
      | some cs =>
          exact ⟨if k < maxd then walkChildrenF nh maxd (k + 1) p cs else [],
            by simp [walkNodeF, h]⟩

/-- C9 counterexample: hidden-exclusion enabled and a root whose final
component begins with `'.'` — the walker's `filter_entry` rejects the root
itself, so even though the root's child `a` is not hidden, no descendant is
enumerated and the render is the root line alone (the claim promises the
child's line below the root line). -/
theorem claim_C9_counterexample :
    generate_tree_string ⟨1, true, false, .Name, false⟩ [⟨".r", true⟩]
        (.dir ⟨".r", true⟩ (some ⟨0, none, none⟩)
          (some [.file ⟨"a", true⟩ (some ⟨1, none, none⟩)])) = some "/.r" ∧
    treeEntries ⟨1, true, false, .Name, false⟩ [⟨".r", true⟩]
        (.dir ⟨".r", true⟩ (some ⟨0, none, none⟩)
          (some [.file ⟨"a", true⟩ (some ⟨1, none, none⟩)])) = [] := by
  exact ⟨rfl, rfl⟩

/-- C9 as amended: the root display line is always emitted, unindented and
with no branch glyph, as the very first output line, and the root is never
depth-limited (its entry heads the walk for every depth, including 0); but the
root *is* subject to hidden-filtering: with hidden-exclusion enabled and a
hidden root, the walker rejects the root and the render is the root line
alone, with no descendants enumerated. -/
theorem claim_C9_amended :
    (∀ (args : TreeArgs) (root : PathM) (t : FsNode) (ls : List String),
       treeLines args root t = some ls → ls.head? = some (pathDisplay root)) ∧
    (∀ (args : TreeArgs) (root : PathM) (t : FsNode),
       filterPred args.no_hidden root = true →
       ((treeItems args root t).filterMap WalkItem.okOf).head? =
         some (root, sortTree (cmpNodes args.sort_type args.reverse_sort) t)) ∧
    (∀ (args : TreeArgs) (root : PathM) (t : FsNode),
       args.no_hidden = true → hiddenUnwrapOr root = true →
       treeLines args root t = some [pathDisplay root]) := by
  refine ⟨?_, ?_, ?_⟩
  · intro args root t ls hls
    rw [treeLines] at hls
    cases hra : renderAll args root.length (treeEntries args root t) with
    | none => rw [hra] at hls; exact Option.noConfusion hls
    | some l =>
        rw [hra] at hls
        have h : pathDisplay root :: l = ls := Option.some.inj hls
        rw [← h]
        rfl
  · intro args root t hpred
    rw [treeItems]
    obtain ⟨rest, hrest⟩ :=
      walkNodeF_accepted args.no_hidden args.depth 0 root
        (sortTree (cmpNodes args.sort_type args.reverse_sort) t) hpred
    rw [hrest]
    rfl
  · intro args root t hnh hhid
    have hpred : filterPred args.no_hidden root = false := by
      rw [filterPred, hnh, hhid]
      rfl
    have hwalk :
        walkNodeF args.no_hidden args.depth 0 root
          (sortTree (cmpNodes args.sort_type args.reverse_sort) t) = [] :=
      walkNodeF_rejected _ _ _ _ _ hpred
    rw [treeLines, treeEntries, treeItems, hwalk]
    rfl

/-- Witness for the amended C9: a hidden root under hidden-exclusion renders
as the root line alone; a normal render has the root display first, both as
the head of the walk and as the head line. -/
theorem claim_C9_amended_witness :
    treeLines ⟨1, true, false, .Name, false⟩ [⟨".r", true⟩]
        (.dir ⟨".r", true⟩ (some ⟨0, none, none⟩)
          (some [.file ⟨"a", true⟩ (some ⟨1, none, none⟩)])) =
      some [pathDisplay [⟨".r", true⟩]] ∧
    ((treeItems ⟨1, false, false, .Name, false⟩ [⟨"r", true⟩]
        (.dir ⟨"r", true⟩ (some ⟨0, none, none⟩)
          (some [.file ⟨"a", true⟩ (some ⟨1, none, none⟩)]))).filterMap
        WalkItem.okOf).head? =
      some ([⟨"r", true⟩], sortTree (cmpNodes .Name false)
        (.dir ⟨"r", true⟩ (some ⟨0, none, none⟩)
          (some [.file ⟨"a", true⟩ (some ⟨1, none, none⟩)]))) ∧
    ([pathDisplay [⟨"r", true⟩], "└─── a"]).head? =
      some (pathDisplay [⟨"r", true⟩]) := by
  refine ⟨claim_C9_amended.2.2 _ _ _ rfl (by decide),
    claim_C9_amended.2.1 ⟨1, false, false, .Name, false⟩ [⟨"r", true⟩] _ (by decide),
    claim_C9_amended.1 ⟨1, false, false, .Name, false⟩ [⟨"r", true⟩]
      (.dir ⟨"r", true⟩ (some ⟨0, none, none⟩)
        (some [.file ⟨"a", true⟩ (some ⟨1, none, none⟩)]))
      [pathDisplay [⟨"r", true⟩], "└─── a"] (by decide)⟩

/-- C10: when hidden filtering is enabled but the hidden check cannot classify
the entry — the path has no final component (the check errors and
`unwrap_or(false)` applies), or the file name is not valid UTF-8 (`to_str`
fails, so `is_some_and` is `false`) — the entry passes the filter; an
accepted directory entry is yielded and its children are walked, not
pruned. -/
theorem claim_C10_hidden_fallback :
    (∀ p : PathM, p.getLast? = none → filterPred true p = true) ∧
    (∀ (p : PathM) (s : OsStrM), p.getLast? = some s → s.utf8 = false →
       filterPred true p = true) ∧
    (∀ (nh : Bool) (maxd k : Nat) (p : PathM) (nm : OsStrM) (m : Option FileMeta)
       (cs : List FsNode), filterPred nh p = true → k < maxd →
       walkNodeF nh maxd k p (.dir nm m (some cs)) =
         .ok p (.dir nm m (some cs)) :: walkChildrenF nh maxd (k + 1) p cs) := by
  refine ⟨?_, ?_, ?_⟩
  · intro p hp
    rw [filterPred, hiddenUnwrapOr, file_is_hidden, hp]
    rfl
  · intro p s hp hutf
    rw [filterPred, hiddenUnwrapOr, file_is_hidden, hp]
    simp [OsStrM.to_str, hutf]
  · intro nh maxd k p nm m cs hpred hk
    rw [walkNodeF, if_pos hpred, if_pos hk]

/-- Witness for C10: the empty (root) path and a non-UTF-8 name both pass the
filter, and a directory with a non-UTF-8 name is descended into. -/
theorem claim_C10_hidden_fallback_witness :
    filterPred true [] = true ∧
    filterPred true [⟨".bad", false⟩] = true ∧
    walkNodeF true 1 0 [⟨".bad", false⟩]
        (.dir ⟨".bad", false⟩ (some ⟨0, none, none⟩)
          (some [.file ⟨"x", true⟩ (some ⟨1, none, none⟩)])) =
      .ok [⟨".bad", false⟩] (.dir ⟨".bad", false⟩ (some ⟨0, none, none⟩)
          (some [.file ⟨"x", true⟩ (some ⟨1, none, none⟩)])) ::
        walkChildrenF true 1 1 [⟨".bad", false⟩]
          [.file ⟨"x", true⟩ (some ⟨1, none, none⟩)] := by
  refine ⟨claim_C10_hidden_fallback.1 [] rfl,
    claim_C10_hidden_fallback.2.1 [⟨".bad", false⟩] ⟨".bad", false⟩ rfl rfl,
    claim_C10_hidden_fallback.2.2 true 1 0 [⟨".bad", false⟩] ⟨".bad", false⟩
      (some ⟨0, none, none⟩) [.file ⟨"x", true⟩ (some ⟨1, none, none⟩)] (by decide)
      (by decide)⟩

/-! ## Branch glyph selection (claim C8)

Every non-root entry's path strictly extends the walk root, and the rendered
line for the `k`-th entry is built from the one-entry lookahead alone. -/

mutual

/-- Every `Ok` item of a node's walk sits at the node's path or strictly
below it. -/
theorem walkNodeF_paths (nh : Bool) (maxd k : Nat) (p : PathM) (n : FsNode) :
    ∀ it ∈ walkNodeF nh maxd k p n, ∀ q m, it = .ok q m →
      q = p ∨ ∃ s, s ≠ [] ∧ q = p ++ s := by
  cases n with
  | file nm mt =>
      intro it hit q m hq
      rw [walkNodeF] at hit
      split at hit
      · rcases List.mem_singleton.mp hit with rfl
        cases hq
        exact Or.inl rfl
      · simp at hit
  | symlink nm tg mt =>
      intro it hit q m hq
      rw [walkNodeF] at hit
      split at hit
      · rcases List.mem_singleton.mp hit with rfl
        cases hq
        exact Or.inl rfl
      · simp at hit
  | dir nm mt cs? =>
      cases cs? with
      | none =>
          intro it hit q m hq
          rw [walkNodeF] at hit
          split at hit
          · rcases List.mem_cons.mp hit with rfl | hit'
            · cases hq
              exact Or.inl rfl
            · split at hit'
              · rcases List.mem_singleton.mp hit' with rfl
                cases hq
              · simp at hit'
          · simp at hit
      | some cs =>
          intro it hit q m hq
          rw [walkNodeF] at hit
          split at hit
          · rcases List.mem_cons.mp hit with rfl | hit'
            · cases hq
              exact Or.inl rfl
            · split at hit'
              · exact Or.inr
                  (walkChildrenF_paths nh maxd (k + 1) p cs it hit' q m hq)
              · simp at hit'
          · simp at hit

/-- Every `Ok` item of a children walk sits strictly below the parent path. -/
theorem walkChildrenF_paths (nh : Bool) (maxd k : Nat) (p : PathM)
    (cs : List FsNode) :
    ∀ it ∈ walkChildrenF nh maxd k p cs, ∀ q m, it = .ok q m →
      ∃ s, s ≠ [] ∧ q = p ++ s := by
  cases cs with
  | nil =>
      intro it hit
      rw [walkChildrenF] at hit
      simp at hit
  | cons c cs =>
      intro it hit q m hq
      rw [walkChildrenF] at hit
      rcases List.mem_append.mp hit with hit' | hit'
      · rcases walkNodeF_paths nh maxd k (p ++ [c.name]) c it hit' q m hq with h | h
        · exact ⟨[c.name], by simp, h⟩
        · rcases h with ⟨s, hs, rfl⟩
          exact ⟨[c.name] ++ s, by simp, by simp⟩
      · exact walkChildrenF_paths nh maxd k p cs it hit' q m hq

end

/-- Every `Ok` item after the node's own entry sits strictly below the node's
path. -/
theorem walkNodeF_tail_paths (nh : Bool) (maxd k : Nat) (p : PathM) (n : FsNode) :
    ∀ it ∈ (walkNodeF nh maxd k p n).tail, ∀ q m, it = .ok q m →
      ∃ s, s ≠ [] ∧ q = p ++ s := by
  cases n with
  | file nm mt =>
      intro it hit
      rw [walkNodeF] at hit
      split at hit <;> simp at hit
  | symlink nm tg mt =>
      intro it hit
      rw [walkNodeF] at hit
      split at hit <;> simp at hit
  | dir nm mt cs? =>
      cases cs? with
      | none =>
          intro it hit q m hq
          rw [walkNodeF] at hit
          split at hit
          · rw [List.tail_cons] at hit
            split at hit
            · rcases List.mem_singleton.mp hit with rfl
              cases hq
            · simp at hit
          · simp at hit
      | some cs =>
          intro it hit q m hq
          rw [walkNodeF] at hit
          split at hit
          · rw [List.tail_cons] at hit
            split at hit
            · exact walkChildrenF_paths nh maxd (k + 1) p cs it hit q m hq
            · simp at hit
          · simp at hit

/-- Every rendered (non-root) tree entry path strictly extends the root. -/
theorem treeEntries_paths (args : TreeArgs) (root : PathM) (t : FsNode) :
    ∀ e ∈ treeEntries args root t, ∃ s, s ≠ [] ∧ e.1 = root ++ s := by
  intro e he
  rw [treeEntries, treeItems] at he
  cases hf : filterPred args.no_hidden root with
  | false =>
      rw [walkNodeF_rejected _ _ _ _ _ hf] at he
      simp at he
  | true =>
      obtain ⟨rest, hrest⟩ :=
        walkNodeF_accepted args.no_hidden args.depth 0 root
          (sortTree (cmpNodes args.sort_type args.reverse_sort) t) hf
      rw [hrest] at he
      have he' : e ∈ rest.filterMap WalkItem.okOf := by
        simpa [WalkItem.okOf] using he
      rcases List.mem_filterMap.mp he' with ⟨it, hit, hok⟩
      have hq : it = .ok e.1 e.2 := by
        cases it with
        | ok q nn =>
            rw [WalkItem.okOf] at hok
            cases Option.some.inj hok
            rfl
        | err => cases hok
      have hittail : it ∈ (walkNodeF args.no_hidden args.depth 0 root
          (sortTree (cmpNodes args.sort_type args.reverse_sort) t)).tail := by
        rw [hrest]
        simpa using hit
      exact walkNodeF_tail_paths args.no_hidden args.depth 0 root _ it hittail
        e.1 e.2 hq

/-- If the whole render succeeds, the `k`-th line is the render of the `k`-th
entry against the one-entry lookahead `get? (k + 1)` — and nothing else. -/
theorem renderAll_get (args : TreeArgs) (rl : Nat) :
    ∀ (l : List (PathM × FsNode)) (ls : List String),
      renderAll args rl l = some ls → ∀ (k : Nat) (e : PathM × FsNode),
        l.get? k = some e →
        ∃ s, renderLine args rl e (l.get? (k + 1)) = some s ∧ ls.get? k = some s := by
  intro l
  induction l with
  | nil =>
      intro ls _ k e hk
      simp at hk
  | cons e0 tl ih =>
      intro ls h k e hk
      cases tl with
      | nil =>
          cases hr : renderLine args rl e0 none with
          | none =>
              rw [renderAll, hr] at h
              exact Option.noConfusion h
          | some s0 =>
              rw [renderAll, hr] at h
              have hls : [s0] = ls := Option.some.inj h
              cases k with
              | zero =>
                  cases Option.some.inj hk
                  exact ⟨s0, hr, by rw [← hls]; rfl⟩
              | succ k' => simp at hk
      | cons f es =>
          rw [renderAll] at h
          cases hr : renderLine args rl e0 (some f) with
          | none =>
              rw [hr] at h
              exact Option.noConfusion h
          | some s0 =>
              rw [hr] at h
              cases hra : renderAll args rl (f :: es) with
              | none =>
                  rw [hra] at h
                  exact Option.noConfusion h
              | some ls' =>
                  rw [hra] at h
                  have hls : s0 :: ls' = ls := Option.some.inj h
                  cases k with
                  | zero =>
                      cases Option.some.inj hk
                      exact ⟨s0, hr, by rw [← hls]; rfl⟩
                  | succ k' =>
                      rcases ih ls' hra k' e (by simpa using hk) with ⟨s, hs1, hs2⟩
                      exact ⟨s, by simpa using hs1, by rw [← hls]; simpa using hs2⟩

/-- Shape of a rendered line with no lookahead entry: terminal-glyph token
repeated as indent, then the terminal glyph. -/
theorem renderLine_shape_none (args : TreeArgs) (rl : Nat) (e : PathM × FsNode)
    (s : String) (h : renderLine args rl e none = some s) :
    ∃ rest, s =
      repeatStr BRANCH_LAST (e.1.length - rl - 1) ++ BRANCH_LAST ++ rest := by
  rw [renderLine.eq_def] at h
  simp only at h
  split at h
  · cases hsz : (if args.show_size then (sizeAnnot e).map (fun s => " - " ++ s)
        else some "") with
    | none =>
        rw [hsz] at h
        exact Option.noConfusion h
    | some sz =>
        rw [hsz] at h
        refine ⟨branchDisplay e ++ sz ++ dateAnnot args.sort_type e.2.metaOpt, ?_⟩
        have hs := Option.some.inj h
        rw [← hs]
        simp [String.append_assoc]
  · refine ⟨branchDisplay e, ?_⟩
    have hs := Option.some.inj h
    rw [← hs]

/-- Shape of a rendered line with a lookahead entry: indent tokens, then the
glyph chosen by the one-step lookahead comparison. -/
theorem renderLine_shape_some (args : TreeArgs) (rl : Nat) (e ne : PathM × FsNode)
    (s : String) (h : renderLine args rl e (some ne) = some s) :
    ∃ rest, s =
      repeatStr INDENT (e.1.length - rl - 1) ++
        (if ne.1.length < e.1.length then BRANCH_LAST else BRANCH) ++ rest := by
  rw [renderLine.eq_def] at h
  simp only at h
  split at h
  · cases hsz : (if args.show_size then (sizeAnnot e).map (fun s => " - " ++ s)
        else some "") with
    | none =>
        rw [hsz] at h
        exact Option.noConfusion h
    | some sz =>
        rw [hsz] at h
        refine ⟨branchDisplay e ++ sz ++ dateAnnot args.sort_type e.2.metaOpt, ?_⟩
        have hs := Option.some.inj h
        rw [← hs]
        simp [String.append_assoc]
  · refine ⟨branchDisplay e, ?_⟩
    have hs := Option.some.inj h
    rw [← hs]

/-- C8: in a successful render, the line of the `k`-th walked entry carries
the terminal branch glyph precisely when the next entry's path-component count
relative to the root is strictly smaller than the current entry's, or there is
no next entry; otherwise it carries the continuation glyph.  Only the
one-entry lookahead `get? (k + 1)` enters the decision. -/
theorem claim_C8_branch_glyph (args : TreeArgs) (root : PathM) (t : FsNode)
    (ls : List String) (k : Nat) (e : PathM × FsNode)
    (hls : treeLines args root t = some ls)
    (he : (treeEntries args root t).get? k = some e) :
    ∃ rest, ls.get? (k + 1) =
      some (repeatStr (match (treeEntries args root t).get? (k + 1) with
                       | none => BRANCH_LAST
                       | some _ => INDENT) (e.1.length - root.length - 1) ++
        (match (treeEntries args root t).get? (k + 1) with
         | none => BRANCH_LAST
         | some ne =>
             if ne.1.length - root.length < e.1.length - root.length then
               BRANCH_LAST
             else BRANCH) ++
        rest) := by
  rw [treeLines] at hls
  cases hra : renderAll args root.length (treeEntries args root t) with
  | none =>
      rw [hra] at hls
      exact Option.noConfusion hls
  | some ls' =>
      rw [hra] at hls
      have hcons : pathDisplay root :: ls' = ls := Option.some.inj hls
      rcases renderAll_get args root.length _ ls' hra k e he with ⟨s, hs1, hs2⟩
      have hget : ls.get? (k + 1) = ls'.get? k := by
        rw [← hcons]
        exact List.get?_cons_succ
      cases hne : (treeEntries args root t).get? (k + 1) with
      | none =>
          rw [hne] at hs1
          rcases renderLine_shape_none args root.length e s hs1 with ⟨rest, hshape⟩
          exact ⟨rest, by rw [hget, hs2, hshape]⟩
      | some ne =>
          rw [hne] at hs1
          rcases renderLine_shape_some args root.length e ne s hs1 with ⟨rest, hshape⟩
          refine ⟨rest, ?_⟩
          rw [hget, hs2, hshape]
          show some ((repeatStr INDENT (e.1.length - root.length - 1) ++
              (if ne.1.length < e.1.length then BRANCH_LAST else BRANCH)) ++ rest) =
            some ((repeatStr INDENT (e.1.length - root.length - 1) ++
              (if ne.1.length - root.length < e.1.length - root.length then
                BRANCH_LAST else BRANCH)) ++ rest)
          -- replace the absolute length comparison by the root-relative one
          rcases treeEntries_paths args root t e (List.get?_mem he) with
            ⟨se, hse, hqe⟩
          rcases treeEntries_paths args root t ne (List.get?_mem hne) with
            ⟨sn, hsn, hqn⟩
          have hle : root.length < e.1.length := by
            rw [hqe, List.length_append]
            have : 0 < se.length := List.length_pos.mpr hse
            omega
          have hln : root.length < ne.1.length := by
            rw [hqn, List.length_append]
            have : 0 < sn.length := List.length_pos.mpr hsn
            omega
          have hiff : (ne.1.length < e.1.length) ↔
              (ne.1.length - root.length < e.1.length - root.length) := by
            omega
          by_cases hc : ne.1.length < e.1.length
          · rw [if_pos hc, if_pos (hiff.mp hc)]
          · rw [if_neg hc, if_neg (fun hrel => hc (hiff.mpr hrel))]

/-- Witness for C8 on a two-level concrete tree: the deeper entry `x` is
followed by the shallower `a`, so `x` gets the terminal glyph; `s` is followed
by the deeper `x`, so `s` gets the continuation glyph. -/
theorem claim_C8_branch_glyph_witness :
    ∃ rest,
      (["/r", "├─── /s", "│   └─── x", "└─── a"] : List String).get? 1 =
        some (repeatStr INDENT 0 ++ BRANCH ++ rest) := by
  have h := claim_C8_branch_glyph ⟨2, false, false, .Name, false⟩ [⟨"r", true⟩]
    (.dir ⟨"r", true⟩ (some ⟨0, none, none⟩) (some [
      .dir ⟨"s", true⟩ (some ⟨0, none, none⟩)
        (some [.file ⟨"x", true⟩ (some ⟨1, none, none⟩)]),
      .file ⟨"a", true⟩ (some ⟨1, none, none⟩)]))
    ["/r", "├─── /s", "│   └─── x", "└─── a"] 0
    ([⟨"r", true⟩, ⟨"s", true⟩], .dir ⟨"s", true⟩ (some ⟨0, none, none⟩)
      (some [.file ⟨"x", true⟩ (some ⟨1, none, none⟩)]))
    (by decide) (by rfl)
  simpa using h

/-! ## Ordering inside sibling groups (claim C7)

The never-reversed primary key of the walk comparator is
`b.path().is_dir().cmp(&a.path().is_dir())` — `Path::is_dir`, not the dirent
file type.  Two entries form a sibling pair when their paths share the parent
(`dropLast`). -/

/-- Relation between two sibling subtrees as sorted by the walk: distinct
names (no directory holds two equal names) and `Path::is_dir` entries
first. -/
def childRel (x y : FsNode) : Prop :=
  x.name ≠ y.name ∧ (y.pathIsDir = true → x.pathIsDir = true)

/-- Relation between two walked entries: within a sibling group (equal parent
paths), `Path::is_dir` entries come first. -/
def entryRel (a b : PathM × FsNode) : Prop :=
  a.1.dropLast = b.1.dropLast → b.2.pathIsDir = true → a.2.pathIsDir = true

mutual

/-- No directory of the tree lists two children with the same name (true of
every real directory listing). -/
def uniqNames : FsNode → Bool
  | .file _ _ => true
  | .symlink _ _ _ => true
  | .dir _ _ none => true
  | .dir _ _ (some cs) => decide ((cs.map FsNode.name).Nodup) && uniqNamesL cs

/-- `uniqNames` over a list of sibling subtrees. -/
def uniqNamesL : List FsNode → Bool
  | [] => true
  | c :: cs => uniqNames c && uniqNamesL cs

end

mutual

/-- Every directory listing of the tree is `childRel`-sorted (the state of a
tree after `sortTree`). -/
def wellSorted : FsNode → Prop
  | .file _ _ => True
  | .symlink _ _ _ => True
  | .dir _ _ none => True
  | .dir _ _ (some cs) => cs.Pairwise childRel ∧ wellSortedL cs

/-- `wellSorted` over a list of sibling subtrees. -/
def wellSortedL : List FsNode → Prop
  | [] => True
  | c :: cs => wellSorted c ∧ wellSortedL cs

end

/-- Membership in an insertion step. -/
theorem mem_insertCmp (c : α → α → Ordering) (a x : α) :
    ∀ l : List α, x ∈ insertCmp c a l → x = a ∨ x ∈ l := by
  intro l
  induction l with
  | nil =>
      intro h
      rw [insertCmp] at h
      exact Or.inl (List.mem_singleton.mp h)
  | cons b l ih =>
      intro h
      rw [insertCmp] at h
      split at h
      · rcases List.mem_cons.mp h with rfl | h'
        · exact Or.inr (List.mem_cons_self _ _)
        · rcases ih h' with h'' | h''
          · exact Or.inl h''
          · exact Or.inr (List.mem_cons_of_mem _ h'')
      · rcases List.mem_cons.mp h with rfl | h'
        · exact Or.inl rfl
        · exact Or.inr h'

/-- An insertion step is a permutation of consing. -/
theorem perm_insertCmp (c : α → α → Ordering) (a : α) :
    ∀ l : List α, (insertCmp c a l).Perm (a :: l) := by
  intro l
  induction l with
  | nil => rw [insertCmp]
  | cons b l ih =>
      rw [insertCmp]
      split
      · exact (ih.cons b).trans (List.Perm.swap a b l)
      · rfl

/-- The stable sort permutes its input. -/
theorem perm_sortCmp (c : α → α → Ordering) :
    ∀ l : List α, (sortCmp c l).Perm l := by
  intro l
  induction l with
  | nil => rw [sortCmp]
  | cons b l ih =>
      rw [sortCmp]
      exact (perm_insertCmp c b (sortCmp c l)).trans (ih.cons b)

/-- Insertion keeps a `Pairwise` relation that refines the comparator's
non-`Greater` verdicts and is transitive. -/
theorem pairwise_insertCmp {R : α → α → Prop} (c : α → α → Ordering)
    (hA : ∀ x y, c x y ≠ .gt → R x y) (hB : ∀ x y, c x y = .gt → R y x)
    (htrans : ∀ x y z, R x y → R y z → R x z) (a : α) :
    ∀ l : List α, l.Pairwise R → (insertCmp c a l).Pairwise R := by
  intro l
  induction l with
  | nil =>
      intro _
      rw [insertCmp]
      exact List.pairwise_singleton R a
  | cons b l ih =>
      intro hl
      rcases List.pairwise_cons.mp hl with ⟨hbl, hl'⟩
      rw [insertCmp]
      split
      · next hgt =>
          refine List.pairwise_cons.mpr ⟨?_, ih hl'⟩
          intro x hx
          rcases mem_insertCmp c a x l hx with rfl | hx'
          · exact hB _ b hgt
          · exact hbl x hx'
      · next hng =>
          have hab : R a b := hA a b hng
          refine List.pairwise_cons.mpr ⟨?_, hl⟩
          intro x hx
          rcases List.mem_cons.mp hx with rfl | hx'
          · exact hab
          · exact htrans a b x hab (hbl x hx')

/-- The stable sort produces a `Pairwise`-ordered list for any relation that
refines the comparator as in `pairwise_insertCmp`. -/
theorem pairwise_sortCmp {R : α → α → Prop} (c : α → α → Ordering)
    (hA : ∀ x y, c x y ≠ .gt → R x y) (hB : ∀ x y, c x y = .gt → R y x)
    (htrans : ∀ x y z, R x y → R y z → R x z) :
    ∀ l : List α, (sortCmp c l).Pairwise R := by
  intro l
  induction l with
  | nil =>
      rw [sortCmp]
      exact List.Pairwise.nil
  | cons b l ih =>
      rw [sortCmp]
      exact pairwise_insertCmp c hA hB htrans b (sortCmp c l) ih

/-- The directories-first primary key forces `Greater` whenever the first
entry is not an accessible directory and the second is — under every sort
mode and both reversal settings. -/
theorem cmpNodes_gt_of (st : SortType) (rev : Bool) (x y : FsNode)
    (hx : x.pathIsDir = false) (hy : y.pathIsDir = true) :
    cmpNodes st rev x y = .gt := by
  rw [cmpNodes, hx, hy]
  rfl

/-- Symmetrically, an accessible directory compared against a non-directory is
`Less`, regardless of mode and reversal. -/
theorem cmpNodes_lt_of (st : SortType) (rev : Bool) (x y : FsNode)
    (hx : x.pathIsDir = true) (hy : y.pathIsDir = false) :
    cmpNodes st rev x y = .lt := by
  rw [cmpNodes, hx, hy]
  rfl

/-- The sorted children of one directory are `Path::is_dir`-first. -/
theorem sortCmp_dirFirst (st : SortType) (rev : Bool) (l : List FsNode) :
    (sortCmp (cmpNodes st rev) l).Pairwise
      (fun x y => y.pathIsDir = true → x.pathIsDir = true) := by
  refine pairwise_sortCmp (cmpNodes st rev) ?_ ?_ ?_ l
  · intro x y hne hy
    cases hx : x.pathIsDir with
    | true => rfl
    | false => exact absurd (cmpNodes_gt_of st rev x y hx hy) hne
  · intro x y hgt hx
    cases hy : y.pathIsDir with
    | true => rfl
    | false =>
        rw [cmpNodes_lt_of st rev x y hx hy] at hgt
        cases hgt
  · intro x y z h1 h2 hz
    exact h1 (h2 hz)

/-- Sorting the listings does not change a node's name. -/
theorem sortTree_name (c : FsNode → FsNode → Ordering) (n : FsNode) :
    (sortTree c n).name = n.name := by
  cases n with
  | file nm m => rfl
  | symlink nm tg m => rfl
  | dir nm m cs? => cases cs? <;> rfl

/-- Sorting the listings does not change what `Path::is_dir` reports. -/
theorem sortTree_pathIsDir (c : FsNode → FsNode → Ordering) (n : FsNode) :
    (sortTree c n).pathIsDir = n.pathIsDir := by
  cases n with
  | file nm m => rfl
  | symlink nm tg m => rfl
  | dir nm m cs? => cases m <;> cases cs? <;> rfl

/-- `sortTreeL` is the elementwise `sortTree`. -/
theorem sortTreeL_eq_map (c : FsNode → FsNode → Ordering) :
    ∀ cs : List FsNode, sortTreeL c cs = cs.map (sortTree c) := by
  intro cs
  induction cs with
  | nil => rfl
  | cons x xs ih => rw [sortTreeL, ih, List.map_cons]

/-- Sorting the listings keeps the name list of a sibling list. -/
theorem sortTreeL_names (c : FsNode → FsNode → Ordering) (cs : List FsNode) :
    (sortTreeL c cs).map FsNode.name = cs.map FsNode.name := by
  rw [sortTreeL_eq_map, List.map_map]
  exact List.map_congr_left fun x _ => sortTree_name c x

/-- `wellSortedL` is membershipwise `wellSorted`. -/
theorem wellSortedL_iff_forall :
    ∀ cs : List FsNode, wellSortedL cs ↔ ∀ x ∈ cs, wellSorted x := by
  intro cs
  induction cs with
  | nil => simp [wellSortedL]
  | cons c cs ih =>
      rw [wellSortedL]
      constructor
      · rintro ⟨h1, h2⟩ x hx
        rcases List.mem_cons.mp hx with rfl | hx'
        · exact h1
        · exact (ih.mp h2) x hx'
      · intro h
        exact ⟨h c (List.mem_cons_self _ _), ih.mpr fun x hx =>
          h x (List.mem_cons_of_mem _ hx)⟩

mutual

/-- After sorting, every directory listing of a tree with unique sibling
names is `childRel`-sorted. -/
theorem wellSorted_sortTree (st : SortType) (rev : Bool) (t : FsNode)
    (h : uniqNames t = true) : wellSorted (sortTree (cmpNodes st rev) t) := by
  cases t with
  | file nm m => exact trivial
  | symlink nm tg m => exact trivial
  | dir nm m cs? =>
      cases cs? with
      | none => exact trivial
      | some cs =>
          rw [uniqNames, Bool.and_eq_true] at h
          rcases h with ⟨h1, h2⟩
          rw [sortTree, wellSorted]
          constructor
          · have hnodup : (cs.map FsNode.name).Nodup := of_decide_eq_true h1
            have hnodup2 : ((sortCmp (cmpNodes st rev)
                (sortTreeL (cmpNodes st rev) cs)).map FsNode.name).Nodup := by
              have hperm : ((sortCmp (cmpNodes st rev)
                  (sortTreeL (cmpNodes st rev) cs)).map FsNode.name).Perm
                  ((sortTreeL (cmpNodes st rev) cs).map FsNode.name) :=
                (perm_sortCmp (cmpNodes st rev) _).map _
              rw [hperm.nodup_iff, sortTreeL_names]
              exact hnodup
            have hnames : (sortCmp (cmpNodes st rev)
                (sortTreeL (cmpNodes st rev) cs)).Pairwise
                (fun a b => a.name ≠ b.name) :=
              List.pairwise_map.mp hnodup2
            have hdirs := sortCmp_dirFirst st rev (sortTreeL (cmpNodes st rev) cs)
            exact hnames.and hdirs
          · have hall : ∀ x ∈ sortTreeL (cmpNodes st rev) cs, wellSorted x := by
              have := wellSortedL_sortTreeL st rev cs h2
              exact (wellSortedL_iff_forall _).mp this
            refine (wellSortedL_iff_forall _).mpr ?_
            intro x hx
            exact hall x ((perm_sortCmp (cmpNodes st rev) _).mem_iff.mp hx)

/-- List version of `wellSorted_sortTree`. -/
theorem wellSortedL_sortTreeL (st : SortType) (rev : Bool) (cs : List FsNode)
    (h : uniqNamesL cs = true) :
    wellSortedL (sortTreeL (cmpNodes st rev) cs) := by
  cases cs with
  | nil => exact trivial
  | cons c cs =>
      rw [uniqNamesL, Bool.and_eq_true] at h
      rw [sortTreeL, wellSortedL]
      exact ⟨wellSorted_sortTree st rev c h.1, wellSortedL_sortTreeL st rev cs h.2⟩

end

/-- Sorting the listings does not change an entry's metadata. -/
theorem sortTree_metaOpt (c : FsNode → FsNode → Ordering) (n : FsNode) :
    (sortTree c n).metaOpt = n.metaOpt := by
  cases n with
  | file nm m => rfl
  | symlink nm tg m => rfl
  | dir nm m cs? => cases cs? <;> rfl

/-- Sorting the listings does not change an entry's dirent file type. -/
theorem sortTree_fileTypeIsDir (c : FsNode → FsNode → Ordering) (n : FsNode) :
    (sortTree c n).fileTypeIsDir = n.fileTypeIsDir := by
  cases n with
  | file nm m => rfl
  | symlink nm tg m => rfl
  | dir nm m cs? => cases cs? <;> rfl

/-- `specBytesL` only depends on the multiset of children. -/
theorem specBytesL_perm {l₁ l₂ : List FsNode} (h : l₁.Perm l₂) :
    specBytesL l₁ = specBytesL l₂ := by
  induction h with
  | nil => rfl
  | cons x _ ih => rw [specBytesL, specBytesL, ih]
  | swap x y l => rw [specBytesL, specBytesL, specBytesL, specBytesL]; omega
  | trans _ _ ih1 ih2 => rw [ih1, ih2]

/-- `specFilesL` only depends on the multiset of children. -/
theorem specFilesL_perm {l₁ l₂ : List FsNode} (h : l₁.Perm l₂) :
    specFilesL l₁ = specFilesL l₂ := by
  induction h with
  | nil => rfl
  | cons x _ ih => rw [specFilesL, specFilesL, ih]
  | swap x y l => rw [specFilesL, specFilesL, specFilesL, specFilesL]; omega
  | trans _ _ ih1 ih2 => rw [ih1, ih2]

mutual

/-- Sorting the listings does not change the spec byte total. -/
theorem specBytes_sortTree (c : FsNode → FsNode → Ordering) (t : FsNode) :
    specBytes (sortTree c t) = specBytes t := by
  cases t with
  | file nm m => rfl
  | symlink nm tg m => rfl
  | dir nm m cs? =>
      cases cs? with
      | none => rfl
      | some cs =>
          rw [sortTree, specBytes, specBytes,
            specBytesL_perm (perm_sortCmp c (sortTreeL c cs))]
          exact specBytesL_sortTreeL c cs

/-- List version of `specBytes_sortTree`. -/
theorem specBytesL_sortTreeL (c : FsNode → FsNode → Ordering) (cs : List FsNode) :
    specBytesL (sortTreeL c cs) = specBytesL cs := by
  cases cs with
  | nil => rfl
  | cons x xs =>
      rw [sortTreeL, specBytesL, specBytesL, specBytes_sortTree c x,
        specBytesL_sortTreeL c xs]

end

mutual

/-- Sorting the listings does not change the spec file count. -/
theorem specFiles_sortTree (c : FsNode → FsNode → Ordering) (t : FsNode) :
    specFiles (sortTree c t) = specFiles t := by
  cases t with
  | file nm m => rfl
  | symlink nm tg m => rfl
  | dir nm m cs? =>
      cases cs? with
      | none => rfl
      | some cs =>
          rw [sortTree, specFiles, specFiles,
            specFilesL_perm (perm_sortCmp c (sortTreeL c cs))]
          exact specFilesL_sortTreeL c cs

/-- List version of `specFiles_sortTree`. -/
theorem specFilesL_sortTreeL (c : FsNode → FsNode → Ordering) (cs : List FsNode) :
    specFilesL (sortTreeL c cs) = specFilesL cs := by
  cases cs with
  | nil => rfl
  | cons x xs =>
      rw [sortTreeL, specFilesL, specFilesL, specFiles_sortTree c x,
        specFilesL_sortTreeL c xs]

end

/-- Sorting the listings does not change root readability. -/
theorem rootUnreadable_sortTree (c : FsNode → FsNode → Ordering) (t : FsNode) :
    rootUnreadable (sortTree c t) = rootUnreadable t := by
  cases t with
  | file nm m => rfl
  | symlink nm tg m => rfl
  | dir nm m cs? => cases cs? <;> rfl

/-- Sorting the listings does not change the fallible size query. -/
theorem size_of_sortTree (c : FsNode → FsNode → Ordering) (t : FsNode) :
    size_of (sortTree c t) = size_of t := by
  rw [size_of, size_of, rootUnreadable_sortTree, specBytes_sortTree,
    specFiles_sortTree]

/-- Sorting the listings does not change `dir_entry_size`. -/
theorem dir_entry_size_sortTree (c : FsNode → FsNode → Ordering) (n : FsNode) :
    dir_entry_size (sortTree c n) = dir_entry_size n := by
  rw [dir_entry_size, dir_entry_size, sortTree_fileTypeIsDir, size_of_sortTree,
    sortTree_metaOpt]

/-- Sorting the listings does not change `sort_entries`. -/
theorem sort_entries_sortTree (c : FsNode → FsNode → Ordering) (st : SortType)
    (a b : FsNode) :
    st.sort_entries (sortTree c a) (sortTree c b) = st.sort_entries a b := by
  cases st with
  | Name =>
      rw [SortType.sort_entries, SortType.sort_entries, sortTree_name,
        sortTree_name]
  | Size =>
      rw [SortType.sort_entries, SortType.sort_entries, dir_entry_size_sortTree,
        dir_entry_size_sortTree]
  | ModifiedDate =>
      rw [SortType.sort_entries, SortType.sort_entries, sortTree_metaOpt,
        sortTree_metaOpt]
  | CreatedDate =>
      rw [SortType.sort_entries, SortType.sort_entries, sortTree_metaOpt,
        sortTree_metaOpt]

/-- The walk comparator cannot distinguish a subtree from its sorted form:
pre-sorting every listing (`sortTree`) and then walking without sorting is
the same as `walkdir`'s sorting of each listing against the unsorted
filesystem. -/
theorem cmpNodes_sortTree (c : FsNode → FsNode → Ordering) (st : SortType)
    (rev : Bool) (a b : FsNode) :
    cmpNodes st rev (sortTree c a) (sortTree c b) = cmpNodes st rev a b := by
  rw [cmpNodes, cmpNodes, sortTree_pathIsDir, sortTree_pathIsDir,
    sort_entries_sortTree]

/-- An entry of the `Ok`-projected stream comes from an `Ok` item. -/
theorem mem_okEntries {l : List WalkItem} {e : PathM × FsNode}
    (h : e ∈ l.filterMap WalkItem.okOf) : WalkItem.ok e.1 e.2 ∈ l := by
  rcases List.mem_filterMap.mp h with ⟨it, hit, hok⟩
  cases it with
  | ok q nn =>
      rw [WalkItem.okOf] at hok
      cases Option.some.inj hok
      exact hit
  | err => cases hok

mutual

/-- Each `Ok` item of a node's walk is the node's own entry or lies strictly
inside its subtree. -/
theorem walkNodeF_origin (nh : Bool) (maxd k : Nat) (p : PathM) (n : FsNode) :
    ∀ it ∈ walkNodeF nh maxd k p n, ∀ q m, it = .ok q m →
      (q = p ∧ m = n) ∨ ∃ s, s ≠ [] ∧ q = p ++ s := by
  cases n with
  | file nm mt =>
      intro it hit q m hq
      rw [walkNodeF] at hit
      split at hit
      · rcases List.mem_singleton.mp hit with rfl
        cases hq
        exact Or.inl ⟨rfl, rfl⟩
      · simp at hit
  | symlink nm tg mt =>
      intro it hit q m hq
      rw [walkNodeF] at hit
      split at hit
      · rcases List.mem_singleton.mp hit with rfl
        cases hq
        exact Or.inl ⟨rfl, rfl⟩
      · simp at hit
  | dir nm mt cs? =>
      cases cs? with
      | none =>
          intro it hit q m hq
          rw [walkNodeF] at hit
          split at hit
          · rcases List.mem_cons.mp hit with rfl | hit'
            · cases hq
              exact Or.inl ⟨rfl, rfl⟩
            · split at hit'
              · rcases List.mem_singleton.mp hit' with rfl
                cases hq
              · simp at hit'
          · simp at hit
      | some cs =>
          intro it hit q m hq
          rw [walkNodeF] at hit
          split at hit
          · rcases List.mem_cons.mp hit with rfl | hit'
            · cases hq
              exact Or.inl ⟨rfl, rfl⟩
            · split at hit'
              · rcases walkChildrenF_origin nh maxd (k + 1) p cs it hit' q m hq
                  with ⟨c, _, horig⟩
                rcases horig with ⟨hq', _⟩ | ⟨s, hs, hq'⟩
                · exact Or.inr ⟨[c.name], by simp, hq'⟩
                · exact Or.inr ⟨[c.name] ++ s, by simp, by rw [hq']; simp⟩
              · simp at hit'
          · simp at hit

/-- Each `Ok` item of a children walk is some child's own entry or lies
strictly inside that child's subtree. -/
theorem walkChildrenF_origin (nh : Bool) (maxd k : Nat) (p : PathM)
    (cs : List FsNode) :
    ∀ it ∈ walkChildrenF nh maxd k p cs, ∀ q m, it = .ok q m →
      ∃ c ∈ cs, (q = p ++ [c.name] ∧ m = c) ∨
        ∃ s, s ≠ [] ∧ q = (p ++ [c.name]) ++ s := by
  cases cs with
  | nil =>
      intro it hit
      rw [walkChildrenF] at hit
      simp at hit
  | cons c cs =>
      intro it hit q m hq
      rw [walkChildrenF] at hit
      rcases List.mem_append.mp hit with hit' | hit'
      · rcases walkNodeF_origin nh maxd k (p ++ [c.name]) c it hit' q m hq with
          ⟨hq', hm⟩ | ⟨s, hs, hq'⟩
        · exact ⟨c, List.mem_cons_self _ _, Or.inl ⟨hq', hm⟩⟩
        · exact ⟨c, List.mem_cons_self _ _, Or.inr ⟨s, hs, hq'⟩⟩
      · rcases walkChildrenF_origin nh maxd k p cs it hit' q m hq with
          ⟨c', hc', horig⟩
        exact ⟨c', List.mem_cons_of_mem _ hc', horig⟩

end

mutual

/-- Within the walk of a well-sorted subtree at a nonempty path, accessible
directories precede non-directories in every sibling group. -/
theorem walkNodeF_entryRel (nh : Bool) (maxd k : Nat) (p : PathM) (n : FsNode)
    (hp : p ≠ []) (hws : wellSorted n) :
    ((walkNodeF nh maxd k p n).filterMap WalkItem.okOf).Pairwise entryRel := by
  cases n with
  | file nm mt =>
      rw [walkNodeF]
      split
      · exact List.pairwise_singleton entryRel _
      · exact List.Pairwise.nil
  | symlink nm tg mt =>
      rw [walkNodeF]
      split
      · exact List.pairwise_singleton entryRel _
      · exact List.Pairwise.nil
  | dir nm mt cs? =>
      cases cs? with
      | none =>
          rw [walkNodeF]
          split
          · split
            · exact List.pairwise_singleton entryRel _
            · exact List.pairwise_singleton entryRel _
          · exact List.Pairwise.nil
      | some cs =>
          rw [wellSorted] at hws
          rw [walkNodeF]
          split
          · split
            · next hk =>
                rw [List.filterMap_cons]
                show ((p, FsNode.dir nm mt (some cs)) ::
                  (walkChildrenF nh maxd (k + 1) p cs).filterMap
                    WalkItem.okOf).Pairwise entryRel
                refine List.pairwise_cons.mpr ⟨?_, ?_⟩
                · intro b hb
                  intro hd _
                  exfalso
                  have hitb := mem_okEntries hb
                  rcases walkChildrenF_paths nh maxd (k + 1) p cs _ hitb b.1 b.2
                    rfl with ⟨s, hs, hq⟩
                  have hd' : p.dropLast = b.1.dropLast := hd
                  have hlen := congrArg List.length hd'
                  rw [hq] at hlen
                  simp only [List.length_dropLast, List.length_append] at hlen
                  have hp1 : 0 < p.length := List.length_pos.mpr hp
                  have hs1 : 0 < s.length := List.length_pos.mpr hs
                  omega
                · exact walkChildrenF_entryRel nh maxd (k + 1) p cs hp
                    hws.1 hws.2
            · rw [List.filterMap_cons]
              exact List.pairwise_singleton entryRel _
          · exact List.Pairwise.nil

/-- Within the walk of a `childRel`-sorted sibling list, accessible
directories precede non-directories in every sibling group. -/
theorem walkChildrenF_entryRel (nh : Bool) (maxd k : Nat) (p : PathM)
    (cs : List FsNode) (hp : p ≠ []) (hpair : cs.Pairwise childRel)
    (hws : wellSortedL cs) :
    ((walkChildrenF nh maxd k p cs).filterMap WalkItem.okOf).Pairwise entryRel := by
  cases cs with
  | nil =>
      rw [walkChildrenF]
      exact List.Pairwise.nil
  | cons c cs =>
      rcases List.pairwise_cons.mp hpair with ⟨hrelc, hpair'⟩
      rw [wellSortedL] at hws
      rw [walkChildrenF, List.filterMap_append]
      refine List.pairwise_append.mpr ⟨?_, ?_, ?_⟩
      · exact walkNodeF_entryRel nh maxd k (p ++ [c.name]) c (by simp) hws.1
      · exact walkChildrenF_entryRel nh maxd k p cs hp hpair' hws.2
      · intro a ha b hb
        have hita := mem_okEntries ha
        have hitb := mem_okEntries hb
        rcases walkNodeF_origin nh maxd k (p ++ [c.name]) c _ hita a.1 a.2 rfl
          with ⟨hqa, hma⟩ | ⟨sa, hsa, hqa⟩
        · rcases walkChildrenF_origin nh maxd k p cs _ hitb b.1 b.2 rfl with
            ⟨c', hc', horig⟩
          rcases horig with ⟨hqb, hmb⟩ | ⟨sb, hsb, hqb⟩
          · -- both are child roots of the same parent: use the sorted sibling
            -- relation between `c` and `c'`
            intro _ hbdir
            rw [hma]
            exact (hrelc c' hc').2 (by rw [← hmb]; exact hbdir)
          · -- `a` is a child root, `b` lies deeper: parents differ in length
            intro hd _
            exfalso
            have hlen := congrArg List.length hd
            rw [hqa, hqb] at hlen
            simp only [List.length_dropLast, List.length_append,
              List.length_singleton] at hlen
            have hs1 : 0 < sb.length := List.length_pos.mpr hsb
            omega
        · rcases walkChildrenF_origin nh maxd k p cs _ hitb b.1 b.2 rfl with
            ⟨c', hc', horig⟩
          rcases horig with ⟨hqb, hmb⟩ | ⟨sb, hsb, hqb⟩
          · -- `a` lies deeper, `b` is a child root: parents differ in length
            intro hd _
            exfalso
            have hlen := congrArg List.length hd
            rw [hqa, hqb] at hlen
            simp only [List.length_dropLast, List.length_append,
              List.length_singleton] at hlen
            have hs1 : 0 < sa.length := List.length_pos.mpr hsa
            omega
          · -- both lie deeper, under siblings with distinct names
            intro hd _
            exfalso
            rcases (hrelc c' hc').1 with hne
            cases sa with
            | nil => exact absurd rfl hsa
            | cons ah at' =>
                cases sb with
                | nil => exact absurd rfl hsb
                | cons bh bt =>
                    rw [hqa, hqb, List.dropLast_append_cons,
                      List.dropLast_append_cons] at hd
                    have hinj := List.append_inj hd (by simp)
                    have : [c.name] = [c'.name] :=
                      List.append_cancel_left hinj.1
                    exact hne (List.cons.inj this).1

end

/-- C7 counterexample: a sibling group read from a directory whose children's
metadata is unreadable (a parent with read permission but no search
permission).  The comparator's primary key is `Path::is_dir`, which reports
`false` for the directory `d` because its metadata is unreadable, so `d` —
still a directory entry by dirent file type, rendered with `/` — is sorted
*after* the regular file `a` by the Name key: a directory entry ordered after
a non-directory entry in its sibling group. -/
theorem claim_C7_counterexample :
    treeEntries ⟨1, false, false, .Name, false⟩ [⟨"r", true⟩]
        (.dir ⟨"r", true⟩ (some ⟨0, none, none⟩)
          (some [.dir ⟨"d", true⟩ none none, .file ⟨"a", true⟩ none])) =
      [([⟨"r", true⟩, ⟨"a", true⟩], .file ⟨"a", true⟩ none),
       ([⟨"r", true⟩, ⟨"d", true⟩], .dir ⟨"d", true⟩ none none)] ∧
    (FsNode.file ⟨"a", true⟩ none).fileTypeIsDir = false ∧
    (FsNode.dir ⟨"d", true⟩ none none).fileTypeIsDir = true ∧
    ([⟨"r", true⟩, ⟨"a", true⟩] : PathM).dropLast =
      ([⟨"r", true⟩, ⟨"d", true⟩] : PathM).dropLast := by
  exact ⟨rfl, rfl, rfl, rfl⟩

/-- C7 as amended: in every rendered sibling group (entries whose paths share
the parent), every entry whose path is an accessible directory after
following symlinks — `Path::is_dir`, the key the code actually uses — is
ordered before every entry whose path is not; this primary key applies under
all four sort modes and is never inverted by `reverse_sort`.  (A real
directory whose metadata cannot be read, or a symlink to a directory, is
classified by `Path::is_dir`, not by its dirent type.)  The hypotheses say
the walk root is a nonempty canonical path and no directory lists two equal
names. -/
theorem claim_C7_amended (args : TreeArgs) (root : PathM) (t : FsNode)
    (hroot : root ≠ []) (huniq : uniqNames t = true) :
    (treeEntries args root t).Pairwise entryRel := by
  rw [treeEntries, treeItems]
  have h := walkNodeF_entryRel args.no_hidden args.depth 0 root
    (sortTree (cmpNodes args.sort_type args.reverse_sort) t) hroot
    (wellSorted_sortTree args.sort_type args.reverse_sort t huniq)
  exact List.Pairwise.sublist (List.drop_sublist 1 _) h

/-- Witness for the amended C7: a concrete mixed sibling group (an accessible
directory, a file, and an unreadable directory) under each reversal
setting. -/
theorem claim_C7_amended_witness :
    (([⟨"r", true⟩] : PathM) ≠ []) ∧
    uniqNames (.dir ⟨"r", true⟩ (some ⟨0, none, none⟩)
      (some [.file ⟨"a", true⟩ (some ⟨1, none, none⟩),
             .dir ⟨"d", true⟩ (some ⟨0, none, none⟩) (some []),
             .dir ⟨"u", true⟩ none none])) = true ∧
    (treeEntries ⟨1, false, false, .Name, false⟩ [⟨"r", true⟩]
      (.dir ⟨"r", true⟩ (some ⟨0, none, none⟩)
        (some [.file ⟨"a", true⟩ (some ⟨1, none, none⟩),
               .dir ⟨"d", true⟩ (some ⟨0, none, none⟩) (some []),
               .dir ⟨"u", true⟩ none none]))).Pairwise entryRel ∧
    (treeEntries ⟨1, false, false, .Size, true⟩ [⟨"r", true⟩]
      (.dir ⟨"r", true⟩ (some ⟨0, none, none⟩)
        (some [.file ⟨"a", true⟩ (some ⟨1, none, none⟩),
               .dir ⟨"d", true⟩ (some ⟨0, none, none⟩) (some []),
               .dir ⟨"u", true⟩ none none]))).Pairwise entryRel := by
  refine ⟨by decide, by decide, ?_, ?_⟩
  · exact claim_C7_amended ⟨1, false, false, .Name, false⟩ [⟨"r", true⟩] _
      (by decide) (by decide)
  · exact claim_C7_amended ⟨1, false, false, .Size, true⟩ [⟨"r", true⟩] _
      (by decide) (by decide)

end Dsz
